import Mathlib

/-!
Verification development for the binary/general tree package
(`src/binarytree/node.py`).

The Python code mutates a pointer-linked graph of `Node` objects in
place.  We embed it with an explicit heap: a `Heap` is a list of
`NodeData` records, an address is an index into that list, and
allocation appends at the end (so a fresh node always receives the
address `h.length`).  Child pointers are addresses; the `children`
list stores `Option Nat` entries because the Python code stores a
literal `None` placeholder in `children` when a right child is added
before a left child exists.

Python `ValueError`s are mapped to the spec's error taxonomy; an
`AttributeError` raised by dereferencing `None` (or a dangling
address, which cannot occur in practice) is modelled by `attrError`.
Loops driven by a work queue are given explicit fuel; running out of
fuel yields the distinguished `fuelOut` error, never a normal result.
-/

/-- The error taxonomy of the spec plus the two model-level failures:
`attrError` (Python raising `AttributeError` on a `None` dereference)
and `fuelOut` (the fuel of a modelled loop ran out). -/
inductive Err where
  | nullRoot
  | emptyPath
  | invalidPath
  | invalidDirection
  | pathBroken
  | childNotFound
  | duplicate
  | indexOutOfRange
  | attrError
  | fuelOut
deriving Repr, DecidableEq

/-- One `Node` object: `value`, the `left`/`right` references and the
parallel `children` list.  `children` entries are `Option Nat` because
the source appends a literal `None` placeholder (line 191 of
`node.py`). -/
structure NodeData where
  value : Int
  left : Option Nat
  right : Option Nat
  children : List (Option Nat)
deriving Repr, DecidableEq

/-- The object heap: index = address. -/
abbrev Heap := List NodeData

/-- `Node(value)`: fresh node with no children (`Node.__init__`). -/
def mkNode (v : Int) : NodeData := ⟨v, none, none, []⟩

/-- Allocate a node; the fresh address is the old heap length. -/
def alloc (h : Heap) (d : NodeData) : Heap × Nat := (h ++ [d], h.length)

/-- A single-root starting heap (`create_tree`). -/
def initHeap (v : Int) : Heap := [mkNode v]

/-- `Node.add_child`: append to `children` and keep the binary view in
sync for the first two children. -/
def addChild (d : NodeData) (n : Nat) : NodeData :=
  let cs := d.children ++ [some n]
  { d with
    children := cs
    left := if cs.length = 1 then some n else d.left
    right := if cs.length = 2 then some n else d.right }

/-- A path argument of `add_node_by_path`: binary mode carries the raw
characters of the path string, general mode the `-`-split tokens with
`none` for a token that does not parse as an integer. -/
inductive TreePath where
  | binary (steps : List Char)
  | general (toks : List (Option Nat))

def TreePath.isEmpty : TreePath → Bool
  | .binary steps => steps.isEmpty
  | .general toks => toks.isEmpty

/-- Binary-mode body of `add_node_by_path` (lines 162-194): walk the
non-final directions, then attach at the final one.  Returns the heap
as it stands at return/raise time together with the raised error, if
any; the source performs no mutation before any raise, which the
atomicity theorem below makes explicit. -/
def addBinAux (v : Int) (h : Heap) (a : Nat) : List Char → Heap × Option Err
  | [] => (h, some .emptyPath)
  | [c] =>
    match h[a]? with
    | none => (h, some .attrError)
    | some d =>
      if c.toUpper = 'L' then
        if d.left.isSome then (h, some .duplicate)
        else
          -- `current.left = Node(value); current.children.append(current.left)`
          let n := h.length
          ((h ++ [mkNode v]).set a
            { d with left := some n, children := d.children ++ [some n] },
           none)
      else if c.toUpper = 'R' then
        if d.right.isSome then (h, some .duplicate)
        else
          -- placeholder `None` lands at index 0 when `children` is empty
          let n := h.length
          ((h ++ [mkNode v]).set a
            { d with right := some n
                     children :=
                       (if d.children.isEmpty then [none] else d.children)
                         ++ [some n] },
           none)
      else (h, some .invalidDirection)
  | c :: c2 :: cs =>
    match h[a]? with
    | none => (h, some .attrError)
    | some d =>
      if c.toUpper = 'L' then
        match d.left with
        | none => (h, some .pathBroken)
        | some l => addBinAux v h l (c2 :: cs)
      else if c.toUpper = 'R' then
        match d.right with
        | none => (h, some .pathBroken)
        | some r => addBinAux v h r (c2 :: cs)
      else (h, some .invalidDirection)

/-- General-mode body of `add_node_by_path` (lines 134-160): walk the
non-final indices, then append at the final one, which must equal the
current child count.  Selecting a `None` placeholder entry makes the
Python code crash at its next attribute access, modelled by
`attrError` at the selection point. -/
def addGenAux (v : Int) (h : Heap) (a : Nat) :
    List (Option Nat) → Heap × Option Err
  | [] => (h, some .emptyPath)
  | [tok] =>
    match tok with
    | none => (h, some .invalidPath)
    | some n =>
      match h[a]? with
      | none => (h, some .attrError)
      | some d =>
        if n = d.children.length then
          ((h ++ [mkNode v]).set a (addChild d h.length), none)
        else (h, some .indexOutOfRange)
  | tok :: tok2 :: toks =>
    match tok with
    | none => (h, some .invalidPath)
    | some n =>
      match h[a]? with
      | none => (h, some .attrError)
      | some d =>
        -- out-of-range lookup is the source's `idx >= len(...)` check;
        -- a placeholder entry crashes at the next attribute access
        match d.children[n]? with
        | none => (h, some .childNotFound)
        | some none => (h, some .attrError)
        | some (some c) => addGenAux v h c (tok2 :: toks)

/-- `add_node_by_path(root, path, value, is_general)`.  Returns the
heap after the call and either the root address (success) or the
raised error. -/
def addNodeByPath (h : Heap) (root : Option Nat) (path : TreePath) (v : Int) :
    Heap × Except Err Nat :=
  match root with
  | none => (h, .error .nullRoot)
  | some r =>
    if path.isEmpty then (h, .error .emptyPath)
    else
      let res :=
        match path with
        | .binary steps => addBinAux v h r steps
        | .general toks => addGenAux v h r toks
      match res.2 with
      | none => (res.1, .ok r)
      | some e => (res.1, .error e)

/-- Run a list of binary-mode inserts from a single root at address 0;
`none` if any insert raises. -/
def runInserts : Heap → List (List Char × Int) → Option Heap
  | h, [] => some h
  | h, (p, v) :: rest =>
    match addNodeByPath h (some 0) (.binary p) v with
    | (h', .ok _) => runInserts h' rest
    | (_, .error _) => none

/-- Turn an optional child pointer into its queue contribution
(`if current.left: queue.append(current.left)`). -/
def optEntry : Option Nat → List (Option Nat)
  | none => []
  | some a => [some a]

/-- BFS loop of `find_node` (lines 273-289).  The queue holds the raw
references Python enqueues, so `children` placeholders put a `none` on
the queue; dequeuing it makes `current.value` raise, modelled by
`attrError`. -/
def findBFS (v : Int) : Nat → Heap → List (Option Nat) → Except Err (Option Nat)
  | 0, _, _ => .error .fuelOut
  | _ + 1, _, [] => .ok none
  | _ + 1, _, none :: _ => .error .attrError
  | fuel + 1, h, some a :: rest =>
    match h[a]? with
    | none => .error .attrError
    | some d =>
      if d.value = v then .ok (some a)
      else if d.children.length > 0 then findBFS v fuel h (rest ++ d.children)
      else findBFS v fuel h (rest ++ optEntry d.left ++ optEntry d.right)

/-- `find_node(root, value)`: address of the first match in BFS order,
or `none`. -/
def findNode (fuel : Nat) (h : Heap) (root : Option Nat) (v : Int) :
    Except Err (Option Nat) :=
  match root with
  | none => .ok none
  | some r => findBFS v fuel h [some r]

/-- `edit_node(root, old_value, new_value)`: find, then overwrite the
value in place. -/
def editNode (fuel : Nat) (h : Heap) (root : Option Nat) (oldV newV : Int) :
    Except Err (Heap × Bool) :=
  match findNode fuel h root oldV with
  | .error e => .error e
  | .ok none => .ok (h, false)
  | .ok (some a) =>
    match h[a]? with
    | none => .error .attrError
    | some d => .ok (h.set a { d with value := newV }, true)

/-- The scan `for i, child in enumerate(current.children)` of
`delete_node`: index of the first child whose value matches, `none` if
no child matches, `attrError` when a placeholder (or dangling address)
is dereferenced before a match is found. -/
def firstMatchAux (h : Heap) (v : Int) :
    List (Option Nat) → Nat → Except Err (Option Nat)
  | [], _ => .ok none
  | none :: _, _ => .error .attrError
  | some c :: rest, i =>
    match h[c]? with
    | none => .error .attrError
    | some cd =>
      if cd.value = v then .ok (some i) else firstMatchAux h v rest (i + 1)

/-- `current.children.pop(i)` followed by the pointer resynchronization
of `delete_node` (lines 345-354), kept exactly as the source's
`if`/`elif` chains: `right` is written only in the two listed cases and
otherwise left untouched. -/
def removeChildAt (d : NodeData) (i : Nat) : NodeData :=
  let cs := d.children.eraseIdx i
  { d with
    children := cs
    left := if i = 0 then (if 1 ≤ cs.length then cs.headD none else none)
            else d.left
    right := if i ≤ 1 ∧ 2 ≤ cs.length then cs.getD 1 none
             else if i = 1 then none else d.right }

/-- BFS loop of `delete_node` (lines 339-371): scan the current node's
`children` for a match (removing it and resyncing on success), fall
back to direct `left`/`right` checks when `children` is empty, and
otherwise keep searching. -/
def deleteBFS (v : Int) : Nat → Heap → List Nat → Except Err Heap
  | 0, _, _ => .error .fuelOut
  | _ + 1, h, [] => .ok h
  | fuel + 1, h, a :: rest =>
    match h[a]? with
    | none => .error .attrError
    | some d =>
      match firstMatchAux h v d.children 0 with
      | .error e => .error e
      | .ok (some i) => .ok (h.set a (removeChildAt d i))
      | .ok none =>
        if d.children.length = 0 then
          match d.left with
          | some l =>
            match h[l]? with
            | none => .error .attrError
            | some ld =>
              if ld.value = v then .ok (h.set a { d with left := none })
              else
                match d.right with
                | some r =>
                  match h[r]? with
                  | none => .error .attrError
                  | some rd =>
                    if rd.value = v then .ok (h.set a { d with right := none })
                    else deleteBFS v fuel h (rest ++ [l, r])
                | none => deleteBFS v fuel h (rest ++ [l])
          | none =>
            match d.right with
            | some r =>
              match h[r]? with
              | none => .error .attrError
              | some rd =>
                if rd.value = v then .ok (h.set a { d with right := none })
                else deleteBFS v fuel h (rest ++ [r])
            | none => deleteBFS v fuel h rest
        else deleteBFS v fuel h (rest ++ d.children.reduceOption)

/-- `delete_node(root, value)`: absent root stays absent, a root match
discards the whole tree, otherwise the BFS loop runs.  The result
pairs the final heap with the returned root reference. -/
def deleteNode (fuel : Nat) (h : Heap) (root : Option Nat) (v : Int) :
    Except Err (Heap × Option Nat) :=
  match root with
  | none => .ok (h, none)
  | some r =>
    match h[r]? with
    | none => .error .attrError
    | some d =>
      if d.value = v then .ok (h, none)
      else
        match deleteBFS v fuel h [r] with
        | .error e => .error e
        | .ok h' => .ok (h', some r)

/-- Navigation part of general-mode path resolution: the address
reached by following the non-final indices, `none` when the walk fails
(out-of-range index, unparsable token, or a placeholder entry). -/
def genNav (h : Heap) : Nat → List (Option Nat) → Option Nat
  | a, [] => some a
  | a, some n :: ts =>
    match h[a]? with
    | none => none
    | some d =>
      match d.children[n]? with
      | some (some c) => genNav h c ts
      | _ => none
  | _, none :: _ => none

/-- A pure `Node` value for the codec functions, which only read and
build structure (no aliasing is ever created by them): `value`, the
`left`/`right` references and the `children` list, exactly the fields
of `Node.__init__`. -/
inductive PNode where
  | mk (value : Int) (left : Option PNode) (right : Option PNode)
       (children : List (Option PNode))

/-- The hierarchical document (the parsed YAML value handed to
`_dict_to_tree` / produced by `_tree_to_dict`): `null` for an absent
entry, `bad` for a value that is not a mapping with a `value` key, and
`map v l r` for a mapping with `value: v` and optional `left`/`right`
submappings (an absent key and an explicit `null` behave identically
in the source, so both are `null`). -/
inductive Doc where
  | null
  | bad
  | map (value : Int) (left : Doc) (right : Doc)

/-- `_dict_to_tree` (lines 790-818): `None` or a malformed mapping
yields an absent node, otherwise a fresh `Node` (empty `children`)
with recursively built `left`/`right`. -/
def dictToTree : Doc → Option PNode
  | .null => none
  | .bad => none
  | .map v l r => some (.mk v (dictToTree l) (dictToTree r) [])

/-- `_tree_to_dict` (lines 908-928): absent node maps to `None`,
otherwise a mapping with the value and the recursively converted
children, the `left`/`right` keys omitted for absent children
(`children` is never read). -/
def treeToDict : Option PNode → Doc
  | none => .null
  | some (.mk v l r _) => .map v (treeToDict l) (treeToDict r)

/-- Value-and-shape comparison over `left`/`right` only, the notion of
tree equality used by the spec's round-trip law. -/
def sameShape : Option PNode → Option PNode → Bool
  | none, none => true
  | some (.mk v1 l1 r1 _), some (.mk v2 l2 r2 _) =>
    v1 == v2 && sameShape l1 l2 && sameShape r1 r2
  | _, _ => false

/-- A tree built purely with `left`/`right` links: every `children`
list is empty. -/
def pureLR : Option PNode → Bool
  | none => true
  | some (.mk _ l r c) => c.isEmpty && pureLR l && pureLR r

/-! ## Helper lemmas -/

theorem addBinAux_error_frame (v : Int) :
    ∀ (p : List Char) (h : Heap) (a : Nat) (e : Err),
      (addBinAux v h a p).2 = some e → (addBinAux v h a p).1 = h := by
  intro p
  induction p with
  | nil => intro h a e _; rfl
  | cons c cs ih =>
    intro h a e herr
    cases cs with
    | nil =>
      cases hg : h[a]? with
      | none => simp [addBinAux, hg]
      | some d =>
        by_cases hL : c.toUpper = 'L'
        · by_cases hdup : d.left.isSome
          · simp [addBinAux, hg, hL, hdup]
          · simp [addBinAux, hg, hL, hdup] at herr
        · by_cases hR : c.toUpper = 'R'
          · by_cases hdup : d.right.isSome
            · simp [addBinAux, hg, hL, hR, hdup]
            · simp [addBinAux, hg, hL, hR, hdup] at herr
          · simp [addBinAux, hg, hL, hR]
    | cons c2 cs2 =>
      cases hg : h[a]? with
      | none => simp [addBinAux, hg]
      | some d =>
        by_cases hL : c.toUpper = 'L'
        · cases hl : d.left with
          | none => simp [addBinAux, hg, hL, hl]
          | some l =>
            simp only [addBinAux, hg, hL, hl, if_true, if_pos] at herr ⊢
            exact ih _ _ _ herr
        · by_cases hR : c.toUpper = 'R'
          · cases hr : d.right with
            | none => simp [addBinAux, hg, hL, hR, hr]
            | some r =>
              simp only [addBinAux] at herr ⊢
              rw [hg] at herr ⊢
              dsimp only at herr ⊢
              rw [if_neg hL, if_pos hR, hr] at herr ⊢
              dsimp only at herr ⊢
              exact ih _ _ _ herr
          · simp [addBinAux, hg, hL, hR]

theorem addGenAux_error_frame (v : Int) :
    ∀ (p : List (Option Nat)) (h : Heap) (a : Nat) (e : Err),
      (addGenAux v h a p).2 = some e → (addGenAux v h a p).1 = h := by
  intro p
  induction p with
  | nil => intro h a e _; rfl
  | cons t ts ih =>
    intro h a e herr
    cases ts with
    | nil =>
      cases t with
      | none => rfl
      | some n =>
        cases hg : h[a]? with
        | none => simp [addGenAux, hg]
        | some d =>
          by_cases hn : n = d.children.length
          · simp [addGenAux, hg, hn] at herr
          · simp [addGenAux, hg, hn]
    | cons t2 ts2 =>
      cases t with
      | none => rfl
      | some n =>
        cases hg : h[a]? with
        | none => simp [addGenAux, hg]
        | some d =>
          cases hc : d.children[n]? with
          | none => simp [addGenAux, hg, hc]
          | some entry =>
            cases entry with
            | none => simp [addGenAux, hg, hc]
            | some c =>
              simp only [addGenAux] at herr ⊢
              rw [hg] at herr ⊢
              dsimp only at herr ⊢
              rw [hc] at herr ⊢
              dsimp only at herr ⊢
              exact ih _ _ _ herr

/-! ## Claims -/

/-- C6: for every non-absent root whose value equals `v`,
`delete(root, v)` returns absent — the whole tree is discarded, with
no replacement spliced in and the heap untouched — regardless of the
root's children. -/
theorem delete_root_discards (fuel : Nat) (h : Heap) (r : Nat) (d : NodeData)
    (v : Int) (hget : h[r]? = some d) (hval : d.value = v) :
    deleteNode fuel h (some r) v = .ok (h, none) := by
  simp [deleteNode, hget, hval]

/-- Witness for C6: a root with two children and a grandchild is
discarded wholesale. -/
theorem delete_root_discards_witness :
    deleteNode 5
      [⟨7, some 1, some 2, [some 1, some 2]⟩, ⟨3, some 3, none, [some 3]⟩,
       ⟨4, none, none, []⟩, ⟨9, none, none, []⟩] (some 0) 7
    = .ok ([⟨7, some 1, some 2, [some 1, some 2]⟩, ⟨3, some 3, none, [some 3]⟩,
            ⟨4, none, none, []⟩, ⟨9, none, none, []⟩], none) :=
  delete_root_discards 5 _ 0 _ 7 rfl rfl

/-- C5: whenever `insert` fails with any error of the taxonomy, the
heap is left exactly as it was before the failed call; in particular
inserting at `"L"` twice on the same parent succeeds the first time
and fails the second time with the duplicate error, changing
nothing. -/
theorem insert_error_atomic :
    (∀ (h : Heap) (root : Option Nat) (path : TreePath) (v : Int) (e : Err),
        (addNodeByPath h root path v).2 = .error e →
        (addNodeByPath h root path v).1 = h) ∧
    addNodeByPath (initHeap 1) (some 0) (.binary ['L']) 2
      = ([⟨1, some 1, none, [some 1]⟩, ⟨2, none, none, []⟩], .ok 0) ∧
    addNodeByPath [⟨1, some 1, none, [some 1]⟩, ⟨2, none, none, []⟩]
        (some 0) (.binary ['L']) 9
      = ([⟨1, some 1, none, [some 1]⟩, ⟨2, none, none, []⟩],
         .error .duplicate) := by
  refine ⟨?_, rfl, rfl⟩
  intro h root path v e herr
  cases root with
  | none => rfl
  | some r =>
    by_cases hemp : path.isEmpty = true
    · simp [addNodeByPath, hemp]
    · cases path with
      | binary steps =>
        rcases hres : addBinAux v h r steps with ⟨h', e?⟩
        cases e? with
        | none => simp [addNodeByPath, hemp, hres] at herr
        | some e2 =>
          have hfr := addBinAux_error_frame v steps h r e2 (by rw [hres])
          rw [hres] at hfr
          simp [addNodeByPath, hemp, hres, hfr]
      | general toks =>
        rcases hres : addGenAux v h r toks with ⟨h', e?⟩
        cases e? with
        | none => simp [addNodeByPath, hemp, hres] at herr
        | some e2 =>
          have hfr := addGenAux_error_frame v toks h r e2 (by rw [hres])
          rw [hres] at hfr
          simp [addNodeByPath, hemp, hres, hfr]

/-- Witness for C5: the general atomicity statement applied to the
concrete failing duplicate insert. -/
theorem insert_error_atomic_witness :
    (addNodeByPath [⟨1, some 1, none, [some 1]⟩, ⟨2, none, none, []⟩]
        (some 0) (.binary ['L']) 9).1
      = [⟨1, some 1, none, [some 1]⟩, ⟨2, none, none, []⟩] :=
  insert_error_atomic.1 _ (some 0) (.binary ['L']) 9 .duplicate rfl

/-- The binary-scenario insert sequence of the spec: root 1, then
`"L"`→2, `"R"`→3, `"LL"`→4, `"LR"`→5.  Address map of the resulting
heap: 0↦1, 1↦2, 2↦3, 3↦4, 4↦5. -/
def scenarioCmds : List (List Char × Int) :=
  [(['L'], 2), (['R'], 3), (['L', 'L'], 4), (['L', 'R'], 5)]

/-- Counterexample to C1: in the concrete scenario (root 1, inserts
`"L"`→2, `"R"`→3, `"LL"`→4, `"LR"`→5, then `edit(root,5,50)`),
`delete(root,4)` does NOT leave `root.left.left` absent: the resync of
`delete_node` pops index 0 of `root.left.children` and reassigns
`root.left.left` to the new `children[0]`, which is the former `"LR"`
child now holding value 50 (address 4). -/
theorem scenario_delete_left_not_absent :
    runInserts (initHeap 1) scenarioCmds
      = some [⟨1, some 1, some 2, [some 1, some 2]⟩,
              ⟨2, some 3, some 4, [some 3, some 4]⟩,
              ⟨3, none, none, []⟩, ⟨4, none, none, []⟩,
              ⟨5, none, none, []⟩] ∧
    editNode 10
        [⟨1, some 1, some 2, [some 1, some 2]⟩,
         ⟨2, some 3, some 4, [some 3, some 4]⟩,
         ⟨3, none, none, []⟩, ⟨4, none, none, []⟩, ⟨5, none, none, []⟩]
        (some 0) 5 50
      = .ok ([⟨1, some 1, some 2, [some 1, some 2]⟩,
              ⟨2, some 3, some 4, [some 3, some 4]⟩,
              ⟨3, none, none, []⟩, ⟨4, none, none, []⟩,
              ⟨50, none, none, []⟩], true) ∧
    deleteNode 20
        [⟨1, some 1, some 2, [some 1, some 2]⟩,
         ⟨2, some 3, some 4, [some 3, some 4]⟩,
         ⟨3, none, none, []⟩, ⟨4, none, none, []⟩, ⟨50, none, none, []⟩]
        (some 0) 4
      = .ok ([⟨1, some 1, some 2, [some 1, some 2]⟩,
              ⟨2, some 4, some 4, [some 4]⟩,
              ⟨3, none, none, []⟩, ⟨4, none, none, []⟩,
              ⟨50, none, none, []⟩], some 0) ∧
    ¬ (([⟨1, some 1, some 2, [some 1, some 2]⟩,
         ⟨2, some 4, some 4, [some 4]⟩,
         ⟨3, none, none, []⟩, ⟨4, none, none, []⟩,
         ⟨50, none, none, []⟩] : Heap)[1]?.map NodeData.left
        = some none) :=
  ⟨rfl, rfl, rfl, by decide⟩

/-- C1 (amended): in the concrete scenario, `find(root,5)` returns the
node with value 5, `edit(root,5,50)` returns true and the node's value
becomes 50, and `delete(root,4)` removes the node with value 4 from
`root.left.children`; the resync then makes `root.left.left` (and the
untouched `root.left.right`) reference the former `"LR"` child, the
node now holding value 50, while `root.left.value` stays 2 and every
other node is unchanged. -/
theorem scenario_delete_resync :
    runInserts (initHeap 1) scenarioCmds
      = some [⟨1, some 1, some 2, [some 1, some 2]⟩,
              ⟨2, some 3, some 4, [some 3, some 4]⟩,
              ⟨3, none, none, []⟩, ⟨4, none, none, []⟩,
              ⟨5, none, none, []⟩] ∧
    findNode 10
        [⟨1, some 1, some 2, [some 1, some 2]⟩,
         ⟨2, some 3, some 4, [some 3, some 4]⟩,
         ⟨3, none, none, []⟩, ⟨4, none, none, []⟩, ⟨5, none, none, []⟩]
        (some 0) 5 = .ok (some 4) ∧
    editNode 10
        [⟨1, some 1, some 2, [some 1, some 2]⟩,
         ⟨2, some 3, some 4, [some 3, some 4]⟩,
         ⟨3, none, none, []⟩, ⟨4, none, none, []⟩, ⟨5, none, none, []⟩]
        (some 0) 5 50
      = .ok ([⟨1, some 1, some 2, [some 1, some 2]⟩,
              ⟨2, some 3, some 4, [some 3, some 4]⟩,
              ⟨3, none, none, []⟩, ⟨4, none, none, []⟩,
              ⟨50, none, none, []⟩], true) ∧
    deleteNode 20
        [⟨1, some 1, some 2, [some 1, some 2]⟩,
         ⟨2, some 3, some 4, [some 3, some 4]⟩,
         ⟨3, none, none, []⟩, ⟨4, none, none, []⟩, ⟨50, none, none, []⟩]
        (some 0) 4
      = .ok ([⟨1, some 1, some 2, [some 1, some 2]⟩,
              ⟨2, some 4, some 4, [some 4]⟩,
              ⟨3, none, none, []⟩, ⟨4, none, none, []⟩,
              ⟨50, none, none, []⟩], some 0) :=
  ⟨rfl, rfl, rfl, rfl⟩

/-- C3 is a code bug: on the tree built from root 1 by the single
successful insert `"R"`→3 — whose `children` list is
`[None, node(3)]` because of the placeholder — `find(root, 99)`
dereferences the dequeued `None` placeholder and raises
`AttributeError` instead of returning absent, and `edit(root, 99, 100)`
raises likewise instead of returning false. -/
theorem find_crashes_on_placeholder :
    runInserts (initHeap 1) [(['R'], 3)]
      = some [⟨1, none, some 1, [none, some 1]⟩, ⟨3, none, none, []⟩] ∧
    findNode 10 [⟨1, none, some 1, [none, some 1]⟩, ⟨3, none, none, []⟩]
        (some 0) 99 = .error .attrError ∧
    editNode 10 [⟨1, none, some 1, [none, some 1]⟩, ⟨3, none, none, []⟩]
        (some 0) 99 100 = .error .attrError :=
  ⟨rfl, rfl, rfl⟩

/-- Walking a successfully resolving prefix does not touch the heap:
the insert is determined by the attach step at the resolved parent. -/
theorem addGenAux_skip_resolved (v : Int) (h : Heap) :
    ∀ (pre : List (Option Nat)) (r p : Nat) (tok : Option Nat),
      genNav h r pre = some p →
      addGenAux v h r (pre ++ [tok]) = addGenAux v h p [tok] := by
  intro pre
  induction pre with
  | nil =>
    intro r p tok hnav
    simp only [genNav] at hnav
    cases hnav
    rfl
  | cons t ts ih =>
    intro r p tok hnav
    cases t with
    | none => simp [genNav] at hnav
    | some n =>
      cases hg : h[r]? with
      | none => simp [genNav, hg] at hnav
      | some d =>
        cases hc : d.children[n]? with
        | none => simp [genNav, hg, hc] at hnav
        | some entry =>
          cases entry with
          | none => simp [genNav, hg, hc] at hnav
          | some c =>
            simp only [genNav] at hnav
            rw [hg] at hnav
            dsimp only at hnav
            rw [hc] at hnav
            dsimp only at hnav
            rcases hts : ts ++ [tok] with _ | ⟨t2, ts2⟩
            · exact absurd hts (List.append_ne_nil_of_right_ne_nil ts (by simp))
            · show addGenAux v h r (some n :: (ts ++ [tok])) = _
              rw [hts]
              simp only [addGenAux]
              rw [hg]
              dsimp only
              rw [hc]
              dsimp only
              rw [← hts]
              exact ih c p tok hnav

/-- Reduction of the `add_node_by_path` wrapper in general mode for a
non-empty token list. -/
theorem addNodeByPath_general (h : Heap) (r : Nat) (toks : List (Option Nat))
    (hne : toks ≠ []) (v : Int) :
    addNodeByPath h (some r) (.general toks) v =
      match (addGenAux v h r toks).2 with
      | none => ((addGenAux v h r toks).1, .ok r)
      | some e => ((addGenAux v h r toks).1, .error e) := by
  simp only [addNodeByPath, TreePath.isEmpty]
  rw [if_neg (by simp [hne])]

/-- C7: in general mode, insert at a resolved parent succeeds if and
only if the final path index equals exactly the parent's child count
(the append position), in which case the new node is appended as the
last child; any other integer final index fails with the
index-out-of-range error, and a non-integer final token fails with the
invalid-path error — in every case leaving the heap unchanged on
failure. -/
theorem general_insert_append_only (h : Heap) (r p : Nat)
    (pre : List (Option Nat)) (d : NodeData) (v : Int) (n : Nat)
    (hnav : genNav h r pre = some p) (hget : h[p]? = some d) :
    ((addNodeByPath h (some r) (.general (pre ++ [some n])) v).2 = .ok r
       ↔ n = d.children.length) ∧
    (n = d.children.length →
      addNodeByPath h (some r) (.general (pre ++ [some n])) v
        = ((h ++ [mkNode v]).set p (addChild d h.length), .ok r) ∧
      (addChild d h.length).children = d.children ++ [some h.length]) ∧
    (n ≠ d.children.length →
      addNodeByPath h (some r) (.general (pre ++ [some n])) v
        = (h, .error .indexOutOfRange)) ∧
    (addNodeByPath h (some r) (.general (pre ++ [none])) v
        = (h, .error .invalidPath)) := by
  have hredN :=
    addNodeByPath_general h r (pre ++ [some n])
      (List.append_ne_nil_of_right_ne_nil pre (by simp)) v
  have hredNone :=
    addNodeByPath_general h r (pre ++ [none])
      (List.append_ne_nil_of_right_ne_nil pre (by simp)) v
  rw [addGenAux_skip_resolved v h pre r p (some n) hnav] at hredN
  rw [addGenAux_skip_resolved v h pre r p none hnav] at hredNone
  by_cases hn : n = d.children.length
  · have hcomp : addGenAux v h p [some n]
        = ((h ++ [mkNode v]).set p (addChild d h.length), none) := by
      simp [addGenAux, hget, hn]
    rw [hcomp] at hredN
    dsimp only at hredN
    refine ⟨by rw [hredN]; simp [hn], fun _ => ⟨hredN, rfl⟩,
      fun hcontra => absurd hn hcontra, ?_⟩
    have hcompNone : addGenAux v h p [none] = (h, some Err.invalidPath) := rfl
    rw [hcompNone] at hredNone
    dsimp only at hredNone
    exact hredNone
  · have hcomp : addGenAux v h p [some n] = (h, some Err.indexOutOfRange) := by
      simp [addGenAux, hget, hn]
    rw [hcomp] at hredN
    dsimp only at hredN
    refine ⟨by simp [hredN, hn], fun hcontra => absurd hcontra hn,
      fun _ => hredN, ?_⟩
    have hcompNone : addGenAux v h p [none] = (h, some Err.invalidPath) := rfl
    rw [hcompNone] at hredNone
    dsimp only at hredNone
    exact hredNone

/-- Witness for C7: on a node with two existing children, insert with
final index 2 appends a new last child, while final index 5 fails with
the index-out-of-range error and leaves the heap unchanged. -/
theorem general_insert_append_only_witness :
    addNodeByPath
        [⟨1, some 1, some 2, [some 1, some 2]⟩, ⟨2, none, none, []⟩,
         ⟨3, none, none, []⟩] (some 0) (.general [some 2]) 7
      = ([⟨1, some 1, some 2, [some 1, some 2, some 3]⟩,
          ⟨2, none, none, []⟩, ⟨3, none, none, []⟩,
          ⟨7, none, none, []⟩], .ok 0) ∧
    addNodeByPath
        [⟨1, some 1, some 2, [some 1, some 2]⟩, ⟨2, none, none, []⟩,
         ⟨3, none, none, []⟩] (some 0) (.general [some 5]) 7
      = ([⟨1, some 1, some 2, [some 1, some 2]⟩, ⟨2, none, none, []⟩,
          ⟨3, none, none, []⟩], .error .indexOutOfRange) :=
  ⟨((general_insert_append_only _ 0 0 []
      ⟨1, some 1, some 2, [some 1, some 2]⟩ 7 2 rfl rfl).2.1 rfl).1.trans rfl,
   (general_insert_append_only _ 0 0 []
      ⟨1, some 1, some 2, [some 1, some 2]⟩ 7 5 rfl rfl).2.2.1 (by decide)⟩

/-- The five per-node states reachable by binary-mode path inserts:
no child; left only; left then right; right only (placeholder at
index 0); right then left (left appended at index 2 behind the
placeholder). -/
def NodeOK (d : NodeData) : Prop :=
  (d.children = [] ∧ d.left = none ∧ d.right = none) ∨
  (∃ l, d.children = [some l] ∧ d.left = some l ∧ d.right = none) ∨
  (∃ l r, d.children = [some l, some r] ∧ d.left = some l ∧ d.right = some r) ∨
  (∃ r, d.children = [none, some r] ∧ d.left = none ∧ d.right = some r) ∨
  (∃ r l, d.children = [none, some r, some l] ∧ d.left = some l ∧
     d.right = some r)

/-- Every allocated node is in one of the five reachable states. -/
def HeapOK (h : Heap) : Prop :=
  ∀ (a : Nat) (d : NodeData), h[a]? = some d → NodeOK d

theorem initHeap_HeapOK (v : Int) : HeapOK (initHeap v) := by
  unfold HeapOK
  intro a d hg
  cases a with
  | zero =>
    simp only [initHeap] at hg
    injection hg with hg
    subst hg
    exact Or.inl ⟨rfl, rfl, rfl⟩
  | succ n => simp [initHeap] at hg

/-- A successful binary-mode insert allocates one fresh node and
rewrites exactly one existing node, in one of the two attach shapes of
the source's final-`L`/final-`R` branches. -/
theorem addBinAux_ok_shape (v : Int) :
    ∀ (p : List Char) (h : Heap) (a : Nat) (h' : Heap),
      addBinAux v h a p = (h', none) →
      ∃ (q : Nat) (d : NodeData), h[q]? = some d ∧
        ((d.left = none ∧
          h' = (h ++ [mkNode v]).set q
            { d with left := some h.length
                     children := d.children ++ [some h.length] }) ∨
         (d.right = none ∧
          h' = (h ++ [mkNode v]).set q
            { d with right := some h.length
                     children := (if d.children.isEmpty then [none]
                                  else d.children) ++ [some h.length] })) := by
  intro p
  induction p with
  | nil => intro h a h' hrun; simp [addBinAux] at hrun
  | cons c cs ih =>
    intro h a h' hrun
    cases cs with
    | nil =>
      cases hg : h[a]? with
      | none => simp [addBinAux, hg] at hrun
      | some d =>
        by_cases hL : c.toUpper = 'L'
        · by_cases hdup : d.left.isSome
          · simp [addBinAux, hg, hL, hdup] at hrun
          · refine ⟨a, d, hg, Or.inl ⟨Option.not_isSome_iff_eq_none.mp hdup, ?_⟩⟩
            simp only [addBinAux] at hrun
            rw [hg] at hrun
            dsimp only at hrun
            rw [if_pos hL, if_neg (by simp [hdup])] at hrun
            exact (Prod.mk.injEq _ _ _ _ ▸ hrun).1.symm
        · by_cases hR : c.toUpper = 'R'
          · by_cases hdup : d.right.isSome
            · simp [addBinAux, hg, hL, hR, hdup] at hrun
            · refine ⟨a, d, hg,
                Or.inr ⟨Option.not_isSome_iff_eq_none.mp hdup, ?_⟩⟩
              simp only [addBinAux] at hrun
              rw [hg] at hrun
              dsimp only at hrun
              rw [if_neg hL, if_pos hR, if_neg (by simp [hdup])] at hrun
              exact (Prod.mk.injEq _ _ _ _ ▸ hrun).1.symm
          · simp [addBinAux, hg, hL, hR] at hrun
    | cons c2 cs2 =>
      cases hg : h[a]? with
      | none => simp [addBinAux, hg] at hrun
      | some d =>
        by_cases hL : c.toUpper = 'L'
        · cases hl : d.left with
          | none => simp [addBinAux, hg, hL, hl] at hrun
          | some l =>
            simp only [addBinAux] at hrun
            rw [hg] at hrun
            dsimp only at hrun
            rw [if_pos hL, hl] at hrun
            exact ih h l h' hrun
        · by_cases hR : c.toUpper = 'R'
          · cases hr : d.right with
            | none => simp [addBinAux, hg, hL, hR, hr] at hrun
            | some r =>
              simp only [addBinAux] at hrun
              rw [hg] at hrun
              dsimp only at hrun
              rw [if_neg hL, if_pos hR, hr] at hrun
              exact ih h r h' hrun
          · simp [addBinAux, hg, hL, hR] at hrun

theorem attach_left_NodeOK (d : NodeData) (n : Nat) (hok : NodeOK d)
    (hl : d.left = none) :
    NodeOK { d with left := some n, children := d.children ++ [some n] } := by
  rcases hok with ⟨hc, _, hr⟩ | ⟨l, _, hleft, _⟩ | ⟨l, r, _, hleft, _⟩ |
    ⟨r, hc, _, hr⟩ | ⟨r, l, _, hleft, _⟩
  · exact Or.inr (Or.inl ⟨n, by simp [hc], rfl, by simp [hr]⟩)
  · rw [hleft] at hl; cases hl
  · rw [hleft] at hl; cases hl
  · exact Or.inr (Or.inr (Or.inr (Or.inr
      ⟨r, n, by simp [hc], rfl, by simp [hr]⟩)))
  · rw [hleft] at hl; cases hl

theorem attach_right_NodeOK (d : NodeData) (n : Nat) (hok : NodeOK d)
    (hr : d.right = none) :
    NodeOK { d with right := some n
                    children := (if d.children.isEmpty then [none]
                                 else d.children) ++ [some n] } := by
  rcases hok with ⟨hc, hl, _⟩ | ⟨l, hc, hl, _⟩ | ⟨l, r, _, _, hright⟩ |
    ⟨r, _, _, hright⟩ | ⟨r, l, _, _, hright⟩
  · exact Or.inr (Or.inr (Or.inr (Or.inl ⟨n, by simp [hc], by simp [hl], rfl⟩)))
  · exact Or.inr (Or.inr (Or.inl ⟨l, n, by simp [hc], by simp [hl], rfl⟩))
  · rw [hright] at hr; cases hr
  · rw [hright] at hr; cases hr
  · rw [hright] at hr; cases hr

theorem HeapOK_preserved_bin (v : Int) (p : List Char) (h h' : Heap) (a : Nat)
    (hok : HeapOK h) (hrun : addBinAux v h a p = (h', none)) : HeapOK h' := by
  obtain ⟨q, d, hq, hcase⟩ := addBinAux_ok_shape v p h a h' hrun
  have hqlt : q < h.length := (List.getElem?_eq_some.mp hq).1
  have hfresh : (h ++ [mkNode v])[h.length]? = some (mkNode v) := by simp
  intro b db hgb
  rcases hcase with ⟨hl, hheq⟩ | ⟨hr, hheq⟩ <;> subst hheq
  · by_cases hbq : b = q
    · subst hbq
      rw [List.getElem?_set_eq_of_lt] at hgb
      · injection hgb with hgb
        subst hgb
        exact attach_left_NodeOK d h.length (hok _ d hq) hl
      · simpa using Nat.lt_succ_of_lt hqlt
    · rw [List.getElem?_set_ne (fun hqb => hbq hqb.symm)] at hgb
      rcases Nat.lt_trichotomy b h.length with hlt | heq | hgt
      · rw [List.getElem?_append_left hlt] at hgb
        exact hok b db hgb
      · subst heq
        rw [hfresh] at hgb
        injection hgb with hgb
        subst hgb
        exact Or.inl ⟨rfl, rfl, rfl⟩
      · rw [List.getElem?_eq_none (by simpa using hgt)] at hgb
        cases hgb
  · by_cases hbq : b = q
    · subst hbq
      rw [List.getElem?_set_eq_of_lt] at hgb
      · injection hgb with hgb
        subst hgb
        exact attach_right_NodeOK d h.length (hok _ d hq) hr
      · simpa using Nat.lt_succ_of_lt hqlt
    · rw [List.getElem?_set_ne (fun hqb => hbq hqb.symm)] at hgb
      rcases Nat.lt_trichotomy b h.length with hlt | heq | hgt
      · rw [List.getElem?_append_left hlt] at hgb
        exact hok b db hgb
      · subst heq
        rw [hfresh] at hgb
        injection hgb with hgb
        subst hgb
        exact Or.inl ⟨rfl, rfl, rfl⟩
      · rw [List.getElem?_eq_none (by simpa using hgt)] at hgb
        cases hgb

/-- A successful `add_node_by_path` call in binary mode reduces to a
successful run of its binary body. -/
theorem addNodeByPath_ok_bin (h h' : Heap) (r rr : Nat) (p : List Char)
    (v : Int) (hcall : addNodeByPath h (some r) (.binary p) v = (h', .ok rr)) :
    addBinAux v h r p = (h', none) := by
  by_cases hemp : (TreePath.binary p).isEmpty = true
  · simp [addNodeByPath, hemp] at hcall
  · rcases hres : addBinAux v h r p with ⟨h2, e?⟩
    simp only [addNodeByPath] at hcall
    rw [if_neg hemp] at hcall
    rw [hres] at hcall
    cases e? with
    | none =>
      dsimp only at hcall
      injection hcall with h1 _
      rw [h1]
    | some e => simp at hcall

theorem runInserts_HeapOK :
    ∀ (cmds : List (List Char × Int)) (h h' : Heap),
      HeapOK h → runInserts h cmds = some h' → HeapOK h' := by
  intro cmds
  induction cmds with
  | nil =>
    intro h h' hok hrun
    simp only [runInserts] at hrun
    injection hrun with hrun
    subst hrun
    exact hok
  | cons cmd rest ih =>
    intro h h' hok hrun
    rcases cmd with ⟨p, v⟩
    rcases hres : addNodeByPath h (some 0) (.binary p) v with ⟨h1, e⟩
    simp only [runInserts] at hrun
    rw [hres] at hrun
    cases e with
    | ok rr =>
      exact ih h1 h'
        (HeapOK_preserved_bin v p h h1 0 hok (addNodeByPath_ok_bin h h1 0 rr p v hres))
        hrun
    | error e => simp at hrun

/-- Counterexample to C2: after the successful binary inserts
`"R"`→2 then `"L"`→3 on a root with value 1, the root's left child is
present (address 2, value 3) but `children[0]` is the `None`
placeholder, not the left child — the final-`L` branch appends the new
left child at index 2 instead of filling the reserved slot. -/
theorem binary_children_misalignment :
    runInserts (initHeap 1) [(['R'], 2), (['L'], 3)]
      = some [⟨1, some 2, some 1, [none, some 1, some 2]⟩,
              ⟨2, none, none, []⟩, ⟨3, none, none, []⟩] ∧
    (⟨1, some 2, some 1, [none, some 1, some 2]⟩ : NodeData).left.isSome
      = true ∧
    ¬ ((⟨1, some 2, some 1, [none, some 1, some 2]⟩ : NodeData).children[0]?
        = some (⟨1, some 2, some 1, [none, some 1, some 2]⟩ : NodeData).left) :=
  ⟨rfl, rfl, by decide⟩

/-- C2 (amended): in every tree built from a single root by successful
binary-mode inserts, every node satisfies: if the right child is
present it is the same node as `children[1]`; and if the left child is
present then either it is the same node as `children[0]`, or the right
child was inserted at that node first, in which case `children` is
exactly `[placeholder, right, left]` — the left child sits at index 2
behind the `None` placeholder. -/
theorem binary_children_alignment (v0 : Int) (cmds : List (List Char × Int))
    (h : Heap) (a : Nat) (d : NodeData)
    (hrun : runInserts (initHeap v0) cmds = some h) (hget : h[a]? = some d) :
    (d.right.isSome = true → d.children[1]? = some d.right) ∧
    (d.left.isSome = true →
      d.children[0]? = some d.left ∨
      (d.right.isSome = true ∧ d.children = [none, d.right, d.left])) := by
  have hok :=
    runInserts_HeapOK cmds (initHeap v0) h (initHeap_HeapOK v0) hrun a d hget
  rcases hok with ⟨hc, hl, hr⟩ | ⟨l, hc, hl, hr⟩ | ⟨l, r, hc, hl, hr⟩ |
    ⟨r, hc, hl, hr⟩ | ⟨r, l, hc, hl, hr⟩
  · constructor
    · intro hson; rw [hr] at hson; cases hson
    · intro hson; rw [hl] at hson; cases hson
  · constructor
    · intro hson; rw [hr] at hson; cases hson
    · intro _; exact Or.inl (by rw [hc, hl]; rfl)
  · constructor
    · intro _; rw [hc, hr]; rfl
    · intro _; exact Or.inl (by rw [hc, hl]; rfl)
  · constructor
    · intro _; rw [hc, hr]; rfl
    · intro hson; rw [hl] at hson; cases hson
  · constructor
    · intro _; rw [hc, hr]; rfl
    · intro _; exact Or.inr ⟨by rw [hr]; rfl, by rw [hc, hl, hr]⟩

/-- Witness for C2: the alignment statement applied to the root of the
tree built by inserting `"L"`→2 then `"R"`→3. -/
theorem binary_children_alignment_witness :
    ((⟨1, some 1, some 2, [some 1, some 2]⟩ : NodeData).right.isSome = true →
      (⟨1, some 1, some 2, [some 1, some 2]⟩ : NodeData).children[1]?
        = some (⟨1, some 1, some 2, [some 1, some 2]⟩ : NodeData).right) ∧
    ((⟨1, some 1, some 2, [some 1, some 2]⟩ : NodeData).left.isSome = true →
      (⟨1, some 1, some 2, [some 1, some 2]⟩ : NodeData).children[0]?
        = some (⟨1, some 1, some 2, [some 1, some 2]⟩ : NodeData).left ∨
      ((⟨1, some 1, some 2, [some 1, some 2]⟩ : NodeData).right.isSome = true ∧
       (⟨1, some 1, some 2, [some 1, some 2]⟩ : NodeData).children
         = [none, (⟨1, some 1, some 2, [some 1, some 2]⟩ : NodeData).right,
            (⟨1, some 1, some 2, [some 1, some 2]⟩ : NodeData).left])) :=
  binary_children_alignment 1 [(['L'], 2), (['R'], 3)]
    [⟨1, some 1, some 2, [some 1, some 2]⟩, ⟨2, none, none, []⟩,
     ⟨3, none, none, []⟩] 0 ⟨1, some 1, some 2, [some 1, some 2]⟩ rfl rfl

/-- Counterexample to C4: deleting value 2 — matched at index 0 of the
root's two-element children list — pops it and reassigns
`left := children[0]`, but the new `children[1]` is absent and `i = 0`
is not `1`, so the source's `if`/`elif` chain leaves `right`
untouched: it still references the node that moved to index 0 instead
of becoming absent as the claim requires. -/
theorem delete_resync_stale_right :
    deleteNode 20
        [⟨1, some 1, some 2, [some 1, some 2]⟩, ⟨2, none, none, []⟩,
         ⟨3, none, none, []⟩] (some 0) 2
      = .ok ([⟨1, some 2, some 2, [some 2]⟩, ⟨2, none, none, []⟩,
              ⟨3, none, none, []⟩], some 0) ∧
    (⟨1, some 2, some 2, [some 2]⟩ : NodeData).children[1]? = none ∧
    ¬ ((⟨1, some 2, some 2, [some 2]⟩ : NodeData).right = none) :=
  ⟨rfl, rfl, by decide⟩

/-- C4 (amended): when `delete` reaches a parent whose `children` list
first matches the value at index `i`, the matched child (with its
subtree) is removed from `children` at index `i` and the parent's
pointers are resynchronized exactly as the source does: if `i` was 0,
`left` becomes the new `children[0]` or absent; `right` becomes the
new `children[1]` when `i ≤ 1` and at least two children remain, and
becomes absent when `i = 1` and fewer than two remain — but when
`i = 0` and fewer than two children remain, `right` is left
unchanged. -/
theorem delete_child_resync (fuel : Nat) (h : Heap) (v : Int) (p : Nat)
    (rest : List Nat) (d : NodeData) (i : Nat)
    (hget : h[p]? = some d)
    (hmatch : firstMatchAux h v d.children 0 = .ok (some i)) :
    deleteBFS v (fuel + 1) h (p :: rest) = .ok (h.set p (removeChildAt d i)) ∧
    (removeChildAt d i).children = d.children.eraseIdx i ∧
    (i = 0 → (removeChildAt d i).left = (d.children.eraseIdx i).headD none) ∧
    (0 < i → (removeChildAt d i).left = d.left) ∧
    (i ≤ 1 → 2 ≤ (d.children.eraseIdx i).length →
      (removeChildAt d i).right = (d.children.eraseIdx i).getD 1 none) ∧
    (i = 1 → (d.children.eraseIdx i).length < 2 →
      (removeChildAt d i).right = none) ∧
    (i = 0 → (d.children.eraseIdx i).length < 2 →
      (removeChildAt d i).right = d.right) := by
  refine ⟨?_, rfl, ?_, ?_, ?_, ?_, ?_⟩
  · simp only [deleteBFS]
    rw [hget]
    dsimp only
    rw [hmatch]
  · intro hi
    subst hi
    simp only [removeChildAt]
    rcases hcs : d.children.eraseIdx 0 with _ | ⟨c0, cs⟩ <;> simp [hcs]
  · intro hi
    simp only [removeChildAt]
    rw [if_neg (by omega)]
  · intro hi hlen
    simp only [removeChildAt]
    rw [if_pos ⟨hi, hlen⟩]
  · intro hi hlen
    subst hi
    simp only [removeChildAt]
    rw [if_neg (by omega)]
    simp
  · intro hi hlen
    subst hi
    simp only [removeChildAt]
    rw [if_neg (by omega)]
    simp

/-- Witness for C4: the resync statement applied to the concrete
two-children parent, where index 0 is removed, `left` becomes the new
`children[0]` and `right` stays unchanged. -/
theorem delete_child_resync_witness :
    deleteBFS 2 5
        [⟨1, some 1, some 2, [some 1, some 2]⟩, ⟨2, none, none, []⟩,
         ⟨3, none, none, []⟩] [0]
      = .ok ([⟨1, some 1, some 2, [some 1, some 2]⟩, ⟨2, none, none, []⟩,
              ⟨3, none, none, []⟩].set 0
              (removeChildAt ⟨1, some 1, some 2, [some 1, some 2]⟩ 0)) ∧
    (removeChildAt ⟨1, some 1, some 2, [some 1, some 2]⟩ 0).children
      = ([some 1, some 2] : List (Option Nat)).eraseIdx 0 ∧
    (removeChildAt ⟨1, some 1, some 2, [some 1, some 2]⟩ 0).left
      = (([some 1, some 2] : List (Option Nat)).eraseIdx 0).headD none ∧
    (removeChildAt ⟨1, some 1, some 2, [some 1, some 2]⟩ 0).right
      = some 2 :=
  have hmain :=
    delete_child_resync 4
      [⟨1, some 1, some 2, [some 1, some 2]⟩, ⟨2, none, none, []⟩,
       ⟨3, none, none, []⟩] 2 0 [] ⟨1, some 1, some 2, [some 1, some 2]⟩ 0
      rfl rfl
  ⟨hmain.1, hmain.2.1, hmain.2.2.1 rfl, hmain.2.2.2.2.2.2 rfl (by decide)⟩

/-- The first-match scan never returns an index below its starting
counter. -/
theorem firstMatchAux_ge (h : Heap) (v : Int) :
    ∀ (cs : List (Option Nat)) (k i : Nat),
      firstMatchAux h v cs k = .ok (some i) → k ≤ i := by
  intro cs
  induction cs with
  | nil => intro k i hm; simp [firstMatchAux] at hm
  | cons e rest ih =>
    intro k i hm
    cases e with
    | none => simp [firstMatchAux] at hm
    | some c =>
      cases hg : h[c]? with
      | none => simp [firstMatchAux, hg] at hm
      | some cd =>
        by_cases hv : cd.value = v
        · have : i = k := by simp [firstMatchAux, hg, hv] at hm; omega
          omega
        · simp only [firstMatchAux] at hm
          rw [hg] at hm
          dsimp only at hm
          rw [if_neg hv] at hm
          have := ih (k + 1) i hm
          omega

/-- A successful first-match scan pins down an actual matching child
at the returned (absolute) index. -/
theorem firstMatchAux_ok_some (h : Heap) (v : Int) :
    ∀ (cs : List (Option Nat)) (k i : Nat),
      firstMatchAux h v cs k = .ok (some i) →
      ∃ c cd, cs[i - k]? = some (some c) ∧ i - k < cs.length ∧
        h[c]? = some cd ∧ cd.value = v := by
  intro cs
  induction cs with
  | nil => intro k i hm; simp [firstMatchAux] at hm
  | cons e rest ih =>
    intro k i hm
    cases e with
    | none => simp [firstMatchAux] at hm
    | some c =>
      cases hg : h[c]? with
      | none => simp [firstMatchAux, hg] at hm
      | some cd =>
        by_cases hv : cd.value = v
        · have hik : i = k := by
            simp only [firstMatchAux] at hm
            rw [hg] at hm
            dsimp only at hm
            rw [if_pos hv] at hm
            injection hm with hm
            injection hm with hm
            omega
          subst hik
          exact ⟨c, cd, by simp, by simp, hg, hv⟩
        · simp only [firstMatchAux] at hm
          rw [hg] at hm
          dsimp only at hm
          rw [if_neg hv] at hm
          obtain ⟨c2, cd2, hidx, hlt, hg2, hv2⟩ := ih (k + 1) i hm
          have hki : k + 1 ≤ i := firstMatchAux_ge h v rest (k + 1) i hm
          refine ⟨c2, cd2, ?_, by simp only [List.length_cons]; omega, hg2, hv2⟩
          have heq : i - k = (i - (k + 1)) + 1 := by omega
          rw [heq]
          simpa using hidx

/-- Case analysis of a successful `delete_node` BFS run: either
nothing matched (heap unchanged) or exactly one existing node — the
parent of the match — was rewritten, by the children-resync, the
left-fallback, or the right-fallback branch. -/
theorem deleteBFS_ok_cases (v : Int) :
    ∀ (fuel : Nat) (q : List Nat) (h h' : Heap),
      deleteBFS v fuel h q = .ok h' →
      h' = h ∨
      ∃ (p : Nat) (d : NodeData), h[p]? = some d ∧
        ((∃ i, firstMatchAux h v d.children 0 = .ok (some i) ∧
           h' = h.set p (removeChildAt d i)) ∨
         (d.children = [] ∧
          ((∃ l ld, d.left = some l ∧ h[l]? = some ld ∧ ld.value = v ∧
             h' = h.set p { d with left := none }) ∨
           (∃ r rd, d.right = some r ∧ h[r]? = some rd ∧ rd.value = v ∧
             h' = h.set p { d with right := none })))) := by
  intro fuel
  induction fuel with
  | zero => intro q h h' hbfs; simp [deleteBFS] at hbfs
  | succ fuel ih =>
    intro q h h' hbfs
    cases q with
    | nil =>
      simp only [deleteBFS] at hbfs
      injection hbfs with hbfs
      exact Or.inl hbfs.symm
    | cons a rest =>
      cases hg : h[a]? with
      | none => simp [deleteBFS, hg] at hbfs
      | some d =>
        simp only [deleteBFS] at hbfs
        rw [hg] at hbfs
        dsimp only at hbfs
        cases hm : firstMatchAux h v d.children 0 with
        | error e => rw [hm] at hbfs; simp at hbfs
        | ok oi =>
          rw [hm] at hbfs
          cases oi with
          | some i =>
            dsimp only at hbfs
            injection hbfs with hbfs
            exact Or.inr ⟨a, d, hg, Or.inl ⟨i, hm, hbfs.symm⟩⟩
          | none =>
            dsimp only at hbfs
            by_cases hce : d.children.length = 0
            · rw [if_pos hce] at hbfs
              have hcnil : d.children = [] := List.length_eq_zero.mp hce
              cases hl : d.left with
              | some l =>
                rw [hl] at hbfs
                dsimp only at hbfs
                cases hgl : h[l]? with
                | none => rw [hgl] at hbfs; simp at hbfs
                | some ld =>
                  rw [hgl] at hbfs
                  dsimp only at hbfs
                  by_cases hlv : ld.value = v
                  · rw [if_pos hlv] at hbfs
                    injection hbfs with hbfs
                    exact Or.inr ⟨a, d, hg, Or.inr ⟨hcnil,
                      Or.inl ⟨l, ld, hl, hgl, hlv, hbfs.symm⟩⟩⟩
                  · rw [if_neg hlv] at hbfs
                    cases hr : d.right with
                    | some r =>
                      rw [hr] at hbfs
                      dsimp only at hbfs
                      cases hgr : h[r]? with
                      | none => rw [hgr] at hbfs; simp at hbfs
                      | some rd =>
                        rw [hgr] at hbfs
                        dsimp only at hbfs
                        by_cases hrv : rd.value = v
                        · rw [if_pos hrv] at hbfs
                          injection hbfs with hbfs
                          exact Or.inr ⟨a, d, hg, Or.inr ⟨hcnil,
                            Or.inr ⟨r, rd, hr, hgr, hrv, by
                              rw [hl]; exact hbfs.symm⟩⟩⟩
                        · rw [if_neg hrv] at hbfs
                          exact ih _ _ _ hbfs
                    | none =>
                      rw [hr] at hbfs
                      dsimp only at hbfs
                      exact ih _ _ _ hbfs
              | none =>
                rw [hl] at hbfs
                dsimp only at hbfs
                cases hr : d.right with
                | some r =>
                  rw [hr] at hbfs
                  dsimp only at hbfs
                  cases hgr : h[r]? with
                  | none => rw [hgr] at hbfs; simp at hbfs
                  | some rd =>
                    rw [hgr] at hbfs
                    dsimp only at hbfs
                    by_cases hrv : rd.value = v
                    · rw [if_pos hrv] at hbfs
                      injection hbfs with hbfs
                      exact Or.inr ⟨a, d, hg, Or.inr ⟨hcnil,
                        Or.inr ⟨r, rd, hr, hgr, hrv, by
                          rw [hl]; exact hbfs.symm⟩⟩⟩
                    · rw [if_neg hrv] at hbfs
                      exact ih _ _ _ hbfs
                | none =>
                  rw [hr] at hbfs
                  dsimp only at hbfs
                  exact ih _ _ _ hbfs
            · rw [if_neg hce] at hbfs
              exact ih _ _ _ hbfs

/-- C10: when `delete(root, v)` removes a non-root node, exactly one
existing node — the parent of the removed node, which has a child
holding value `v` — has its fields modified; every other heap cell
(in particular every node outside the removed subtree) keeps its
value, left, right and children unchanged, and the returned root is
the very reference that was passed in. -/
theorem delete_frame (fuel : Nat) (h h' : Heap) (root : Nat) (rd : NodeData)
    (v : Int) (r' : Option Nat)
    (hget : h[root]? = some rd) (hne : rd.value ≠ v)
    (hdel : deleteNode fuel h (some root) v = .ok (h', r'))
    (hchanged : h' ≠ h) :
    r' = some root ∧
    ∃ (p : Nat) (d : NodeData), h[p]? = some d ∧
      (∀ b, b ≠ p → h'[b]? = h[b]?) ∧
      h'[p]? ≠ h[p]? ∧
      ((∃ (i c : Nat) (cd : NodeData), d.children[i]? = some (some c) ∧
         h[c]? = some cd ∧ cd.value = v) ∨
       (d.children = [] ∧
        ((∃ (l : Nat) (ld : NodeData), d.left = some l ∧ h[l]? = some ld ∧
           ld.value = v) ∨
         (∃ (r : Nat) (rr : NodeData), d.right = some r ∧ h[r]? = some rr ∧
           rr.value = v)))) := by
  simp only [deleteNode] at hdel
  rw [hget] at hdel
  dsimp only at hdel
  rw [if_neg hne] at hdel
  cases hbfs : deleteBFS v fuel h [root] with
  | error e => rw [hbfs] at hdel; simp at hdel
  | ok h2 =>
    rw [hbfs] at hdel
    dsimp only at hdel
    injection hdel with hdel
    injection hdel with hfst hsnd
    subst hfst
    rcases deleteBFS_ok_cases v fuel [root] h _ hbfs with heq | ⟨p, d, hp, hcase⟩
    · exact absurd heq hchanged
    · have hplt : p < h.length := (List.getElem?_eq_some.mp hp).1
      refine ⟨hsnd.symm, p, d, hp, ?_⟩
      rcases hcase with ⟨i, hm, hset⟩ | ⟨hcnil, hfall⟩
      · obtain ⟨c, cd, hidx, hilt, hgc, hcv⟩ :=
          firstMatchAux_ok_some h v d.children 0 i hm
        rw [Nat.sub_zero] at hidx hilt
        subst hset
        refine ⟨?_, ?_, Or.inl ⟨i, c, cd, hidx, hgc, hcv⟩⟩
        · intro b hbp
          exact List.getElem?_set_ne (Ne.symm hbp)
        · have hchg : (h.set p (removeChildAt d i))[p]?
              = some (removeChildAt d i) := by
            rw [List.getElem?_set_eq_of_lt]
            exact hplt
          rw [hchg, hp]
          intro hcon
          injection hcon with hcon
          have hlen := congrArg (fun nd => nd.children.length) hcon
          dsimp only at hlen
          have herase : ((removeChildAt d i).children).length
              = d.children.length - 1 := by
            show ((d.children.eraseIdx i).length) = _
            simp [List.length_eraseIdx, hilt]
          omega
      · rcases hfall with ⟨l, ld, hl, hgl, hlv, hset⟩ |
          ⟨r, rr, hr, hgr, hrv, hset⟩
        · subst hset
          refine ⟨?_, ?_, Or.inr ⟨hcnil, Or.inl ⟨l, ld, hl, hgl, hlv⟩⟩⟩
          · intro b hbp
            exact List.getElem?_set_ne (Ne.symm hbp)
          · have hchg : (h.set p { d with left := none })[p]?
                = some { d with left := none } := by
              rw [List.getElem?_set_eq_of_lt]
              exact hplt
            rw [hchg, hp]
            intro hcon
            injection hcon with hcon
            have := congrArg NodeData.left hcon
            rw [hl] at this
            simp at this
        · subst hset
          refine ⟨?_, ?_, Or.inr ⟨hcnil, Or.inr ⟨r, rr, hr, hgr, hrv⟩⟩⟩
          · intro b hbp
            exact List.getElem?_set_ne (Ne.symm hbp)
          · have hchg : (h.set p { d with right := none })[p]?
                = some { d with right := none } := by
              rw [List.getElem?_set_eq_of_lt]
              exact hplt
            rw [hchg, hp]
            intro hcon
            injection hcon with hcon
            have := congrArg NodeData.right hcon
            rw [hr] at this
            simp at this

/-- Witness for C10: deleting value 2 (the only child of the root)
modifies only the root cell and returns the root reference passed
in. -/
theorem delete_frame_witness :
    (some 0 : Option Nat) = some 0 ∧
    ∃ (p : Nat) (d : NodeData),
      ([⟨1, some 1, none, [some 1]⟩, ⟨2, none, none, []⟩] : Heap)[p]?
        = some d ∧
      (∀ b, b ≠ p →
        ([⟨1, none, none, []⟩, ⟨2, none, none, []⟩] : Heap)[b]?
          = ([⟨1, some 1, none, [some 1]⟩, ⟨2, none, none, []⟩] : Heap)[b]?) ∧
      ([⟨1, none, none, []⟩, ⟨2, none, none, []⟩] : Heap)[p]?
        ≠ ([⟨1, some 1, none, [some 1]⟩, ⟨2, none, none, []⟩] : Heap)[p]? ∧
      ((∃ (i c : Nat) (cd : NodeData), d.children[i]? = some (some c) ∧
         ([⟨1, some 1, none, [some 1]⟩, ⟨2, none, none, []⟩] : Heap)[c]?
           = some cd ∧ cd.value = 2) ∨
       (d.children = [] ∧
        ((∃ (l : Nat) (ld : NodeData), d.left = some l ∧
           ([⟨1, some 1, none, [some 1]⟩, ⟨2, none, none, []⟩] : Heap)[l]?
             = some ld ∧ ld.value = 2) ∨
         (∃ (r : Nat) (rr : NodeData), d.right = some r ∧
           ([⟨1, some 1, none, [some 1]⟩, ⟨2, none, none, []⟩] : Heap)[r]?
             = some rr ∧ rr.value = 2)))) :=
  delete_frame 5 [⟨1, some 1, none, [some 1]⟩, ⟨2, none, none, []⟩]
    [⟨1, none, none, []⟩, ⟨2, none, none, []⟩] 0
    ⟨1, some 1, none, [some 1]⟩ 2 (some 0) rfl (by decide) rfl (by decide)

theorem sameShape_roundtrip :
    ∀ (n : Nat) (t : Option PNode), sizeOf t ≤ n →
      sameShape (dictToTree (treeToDict t)) t = true := by
  intro n
  induction n with
  | zero =>
    intro t hsz
    cases t with
    | none => simp [treeToDict, dictToTree, sameShape]
    | some x => cases x; simp at hsz
  | succ n ih =>
    intro t hsz
    cases t with
    | none => simp [treeToDict, dictToTree, sameShape]
    | some x =>
      cases x with
      | mk v l r c =>
        have hsl : sizeOf l ≤ n := by simp at hsz; omega
        have hsr : sizeOf r ≤ n := by simp at hsz; omega
        simp only [treeToDict, dictToTree, sameShape]
        rw [ih l hsl, ih r hsr]
        simp

/-- C8: round-trip law — for every tree built purely with left/right
links (no general-mode `children`), `from_document(to_document(T))`
yields a tree equal to `T` under value-and-shape comparison over
`left`/`right`; and `to_document` of an absent root is absent. -/
theorem document_roundtrip (t : Option PNode) (hpure : pureLR t = true) :
    sameShape (dictToTree (treeToDict t)) t = true ∧
    treeToDict none = .null :=
  ⟨sameShape_roundtrip (sizeOf t) t le_rfl, by simp [treeToDict]⟩

/-- Witness for C8: the round trip on the three-node left/right tree
10/(5, 15). -/
theorem document_roundtrip_witness :
    sameShape
      (dictToTree (treeToDict (some (.mk 10 (some (.mk 5 none none []))
        (some (.mk 15 none none [])) []))))
      (some (.mk 10 (some (.mk 5 none none []))
        (some (.mk 15 none none [])) [])) = true ∧
    treeToDict none = .null :=
  document_roundtrip
    (some (.mk 10 (some (.mk 5 none none []))
      (some (.mk 15 none none [])) []))
    (by simp [pureLR, List.isEmpty])

/-- C9: every node produced by `from_document` has an empty `children`
list: only the `left`/`right` references are populated, never the
parallel `children` representation, so an imported tree is traversed
by `find` only through its left/right fallback branch (which fires
exactly when `children` is empty). -/
theorem from_document_children_empty (d : Doc) :
    pureLR (dictToTree d) = true := by
  induction d with
  | null => simp [dictToTree, pureLR]
  | bad => simp [dictToTree, pureLR]
  | map v l r ihl ihr => simp [dictToTree, pureLR, ihl, ihr]
